import Mathlib

/-!
Verification development for the kokoro-tts batch audio processing pipeline.

The definitions below are shallow embeddings of the TypeScript sources:
  * `src/app/api/tts/route.ts`          — main TTS endpoint (encode / fallback)
  * `src/app/api/tts/process/route.ts`  — merge endpoint, janitor, temp files
  * the local TTS endpoint and compression endpoint (unnamed route files)
  * the client-side batch processor (chunker + orchestrator) and stitcher

Strings are modelled as `List Char`, byte buffers as `List Nat` (each entry a
byte value), and external effectful collaborators (the synthesizer, the lamejs
encoder, ffmpeg, the filesystem) as explicit function parameters or injected
failure flags.
-/

namespace KokoroTTS

/-- Whitespace predicate modelling the JavaScript `\s` class and `trim`
semantics restricted to the ASCII range (space, tab, newline, carriage
return, vertical tab, form feed). -/
def isWS (c : Char) : Bool :=
  c = ' ' || c = '\t' || c = '\n' || c = '\r' || c = '\x0b' || c = '\x0c'

/-- Sentence-terminal punctuation, the character class `[.!?]` used by the
chunker in `BatchProcessor.chunkText`. -/
def isSentencePunct (c : Char) : Bool :=
  c = '.' || c = '!' || c = '?'

/-- Model of JavaScript `String.prototype.trim`: drop whitespace from both
ends. -/
def trim (l : List Char) : List Char :=
  ((l.dropWhile isWS).reverse.dropWhile isWS).reverse

/-- Characters that survive both whitespace normalization and
sentence-punctuation normalization; used to state content preservation of
the chunker. -/
def keepF (l : List Char) : List Char :=
  l.filter (fun c => !(isWS c || isSentencePunct c))

/-- Strip every whitespace character; comparison of `stripWS` images is the
formal reading of equality up to whitespace normalization. -/
def stripWS (l : List Char) : List Char :=
  l.filter (fun c => !(isWS c))

/-- Interpretation of a byte list as a little-endian signed 16-bit PCM
stream, modelling the JavaScript `new Int16Array(buffer)` view used on
`audioBuffer.slice(44)`. A trailing odd byte is ignored. -/
def bytesToInt16LE : List Nat → List Int
  | lo :: hi :: rest =>
      (let v := lo + 256 * hi
       if v < 32768 then (v : Int) else (v : Int) - 65536) :: bytesToInt16LE rest
  | _ => []

/-- HTTP response as observed by the caller of one of the API routes: the
status code, the content type, and the raw body bytes. Error JSON bodies
are modelled as empty byte lists (only their status matters to the claims). -/
structure HttpResponse where
  status : Nat
  contentType : List Char
  body : List Nat
  deriving DecidableEq, Repr

def wavCT : List Char := "audio/wav".data
def mpegCT : List Char := "audio/mpeg".data
def jsonCT : List Char := "application/json".data

/-! ### Size-bounded batch merger

Model of the grouping loop of `POST` in `src/app/api/tts/process/route.ts`
(lines 181-230) and, identically, of the grouping loop of
`stitchAudioFiles` in the client stitcher (lines 165-186): iterate the
per-artifact sizes in order; when `currentBatchSize + fileSize >
maxSizeBytes` and the current batch is non-empty, close the batch and start
a new one holding just this artifact; otherwise accumulate. Artifacts are
identified by their 1-based position, matching the spec scenario numbering
and the `_part_{n}` output naming. -/

/-- Pair every element with its position, starting at `start`. -/
def withIdx (start : Nat) : List Nat → List (Nat × Nat)
  | [] => []
  | s :: rest => (start, s) :: withIdx (start + 1) rest

/-- Grouping loop of the merge step. State: already closed groups, the
current batch (artifact positions), and the current batch size. -/
def mergeGroupingGo (maxSizeBytes : Nat) :
    List (Nat × Nat) → List (List Nat) → List Nat → Nat → List (List Nat)
  | [], groups, currentBatch, _ =>
      if currentBatch ≠ [] then groups ++ [currentBatch] else groups
  | (i, fileSize) :: rest, groups, currentBatch, currentBatchSize =>
      if currentBatchSize + fileSize > maxSizeBytes ∧ currentBatch ≠ [] then
        mergeGroupingGo maxSizeBytes rest (groups ++ [currentBatch]) [i] fileSize
      else
        mergeGroupingGo maxSizeBytes rest groups (currentBatch ++ [i]) (currentBatchSize + fileSize)

/-- Groups produced by the merge step for the given per-artifact sizes and
byte ceiling. -/
def mergeGrouping (sizes : List Nat) (maxSizeBytes : Nat) : List (List Nat) :=
  mergeGroupingGo maxSizeBytes (withIdx 1 sizes) [] [] 0

theorem mergeGroupingGo_join (maxB : Nat) :
    ∀ (l : List (Nat × Nat)) (groups : List (List Nat)) (batch : List Nat) (size : Nat),
      (mergeGroupingGo maxB l groups batch size).flatten =
        groups.flatten ++ batch ++ l.map Prod.fst := by
  intro l
  induction l with
  | nil =>
      intro groups batch size
      by_cases h : batch = []
      · subst h; simp [mergeGroupingGo]
      · simp [mergeGroupingGo, h]
  | cons p rest ih =>
      intro groups batch size
      obtain ⟨i, fileSize⟩ := p
      by_cases h : size + fileSize > maxB ∧ batch ≠ []
      · simp [mergeGroupingGo, h, ih]
      · simp [mergeGroupingGo, h, ih]

theorem withIdx_map_fst : ∀ (start : Nat) (l : List Nat),
    (withIdx start l).map Prod.fst = List.range' start l.length := by
  intro start l
  induction l generalizing start with
  | nil => simp [withIdx]
  | cons s rest ih => simp [withIdx, List.range', ih]

/-- C1 scenario input: five artifacts of 25 MB each. -/
def fiveArtifacts : List Nat := List.replicate 5 (25 * 1024 * 1024)

/-- C1 scenario bound: 100 MB. -/
def hundredMB : Nat := 100 * 1024 * 1024

/-- C1 counterexample: with five artifacts of 25 MB and a 100 MB ceiling the
merger does NOT produce the groups [[1,2,3],[4,5]] stated by the claim: the
fourth artifact makes the running size exactly 100 MB, which does not
exceed the bound, so it stays in the first group. -/
theorem mergeGrouping_scenario_ne_claim :
    mergeGrouping fiveArtifacts hundredMB ≠ [[1, 2, 3], [4, 5]] := by
  decide

/-- C1 (amended): the merger accumulates an artifact exactly when
`currentGroupSize + nextSize ≤ maxBatchBytes` (boundary inclusive) and
otherwise closes the non-empty current group; consequently five 25 MB
artifacts under a 100 MB ceiling yield the groups [[1,2,3,4],[5]], and in
general the groups partition the artifact positions 1..n in order. -/
theorem mergeGrouping_scenario :
    mergeGrouping fiveArtifacts hundredMB = [[1, 2, 3, 4], [5]] ∧
    ∀ (sizes : List Nat) (maxB : Nat),
      (mergeGrouping sizes maxB).flatten = List.range' 1 sizes.length := by
  refine ⟨by decide, ?_⟩
  intro sizes maxB
  rw [mergeGrouping, mergeGroupingGo_join]
  simp [withIdx_map_fst]

/-! ### Compression endpoint

Model of `POST` in the compression route (unnamed source `part_005`,
lines 5-93): an empty body is rejected with status 400; a body of at least
12 bytes starting with the ASCII bytes `R`, `I`, `F`, `F` is treated as a
WAV file and re-encoded through lamejs (its possible failure yields 500);
any other body is returned as-is with status 200. The lamejs encoder is an
external collaborator, passed as the function `encode`. -/

def riffMagic : List Nat := [0x52, 0x49, 0x46, 0x46]

def compressPOST (body : List Nat) (encode : List Int → Except Unit (List Nat)) :
    HttpResponse :=
  if body.length = 0 then
    { status := 400, contentType := jsonCT, body := [] }
  else if 12 ≤ body.length ∧ body.getD 0 0 = 0x52 ∧ body.getD 1 0 = 0x49 ∧
      body.getD 2 0 = 0x46 ∧ body.getD 3 0 = 0x46 then
    match encode (bytesToInt16LE (body.drop 44)) with
    | .ok mp3Buffer => { status := 200, contentType := mpegCT, body := mp3Buffer }
    | .error _ => { status := 500, contentType := jsonCT, body := [] }
  else
    { status := 200, contentType := mpegCT, body := body }

theorem take_four_eq_of_getD (body : List Nat) (h4 : 4 ≤ body.length)
    (h0 : body.getD 0 0 = 0x52) (h1 : body.getD 1 0 = 0x49)
    (h2 : body.getD 2 0 = 0x46) (h3 : body.getD 3 0 = 0x46) :
    body.take 4 = riffMagic := by
  match body, h4 with
  | a :: b :: c :: d :: rest, _ =>
    simp [List.getD] at h0 h1 h2 h3
    simp [riffMagic, List.take, h0, h1, h2, h3]

/-- C10: a non-empty request body whose first four bytes are not `RIFF` is
returned byte-for-byte unchanged with status 200, and an empty body yields
status 400 with no audio output. -/
theorem compressPOST_passthrough (body : List Nat)
    (encode : List Int → Except Unit (List Nat))
    (hne : body ≠ []) (hriff : body.take 4 ≠ riffMagic) :
    compressPOST body encode =
      { status := 200, contentType := mpegCT, body := body } ∧
    ∀ encode2, compressPOST [] encode2 =
      { status := 400, contentType := jsonCT, body := [] } := by
  constructor
  · have hlen : body.length ≠ 0 := by simpa using hne
    have hcond : ¬(12 ≤ body.length ∧ body.getD 0 0 = 0x52 ∧ body.getD 1 0 = 0x49 ∧
        body.getD 2 0 = 0x46 ∧ body.getD 3 0 = 0x46) := by
      rintro ⟨h12, h0, h1, h2, h3⟩
      exact hriff (take_four_eq_of_getD body (by omega) h0 h1 h2 h3)
    rw [compressPOST, if_neg hlen, if_neg hcond]
  · intro encode2
    simp [compressPOST]

/-- C10 witness: the three-byte body `[1, 2, 3]` is not RIFF and passes
through unchanged; the empty body is rejected with 400. -/
theorem compressPOST_passthrough_witness :
    compressPOST [1, 2, 3] (fun _ => .error ()) =
      { status := 200, contentType := mpegCT, body := [1, 2, 3] } ∧
    ∀ encode2, compressPOST [] encode2 =
      { status := 400, contentType := jsonCT, body := [] } :=
  compressPOST_passthrough [1, 2, 3] (fun _ => .error ()) (by decide) (by decide)

/-! ### Main TTS endpoint: MP3 encoding with WAV fallback

Model of the response section of `POST` in `src/app/api/tts/route.ts`
(lines 204-272). The WAV container bytes `audioBuffer` have already been
produced. When the requested format is `mp3`, the route extracts the PCM
samples past the 44-byte header and runs the lamejs encoder (frame loop and
flush, modelled together as the external function `encodeMp3`); if that
whole encoding attempt throws, the route falls through to returning the
untouched WAV bytes with status 200. -/

def ttsPOSTRespond (format : List Char) (audioBuffer : List Nat)
    (encodeMp3 : List Int → Except Unit (List Nat)) : HttpResponse :=
  if format = "mp3".data then
    match encodeMp3 (bytesToInt16LE (audioBuffer.drop 44)) with
    | .ok mp3Buffer => { status := 200, contentType := mpegCT, body := mp3Buffer }
    | .error _ => { status := 200, contentType := wavCT, body := audioBuffer }
  else
    { status := 200, contentType := wavCT, body := audioBuffer }

/-- C7: whenever the MP3 encoding attempt fails, the endpoint returns the
WAV container bytes verbatim — the exact `audioBuffer` it held before the
attempt — with status 200, not an error. -/
theorem ttsPOSTRespond_fallback (audioBuffer : List Nat)
    (encodeMp3 : List Int → Except Unit (List Nat))
    (hfail : encodeMp3 (bytesToInt16LE (audioBuffer.drop 44)) = .error ()) :
    ttsPOSTRespond "mp3".data audioBuffer encodeMp3 =
      { status := 200, contentType := wavCT, body := audioBuffer } := by
  simp [ttsPOSTRespond, hfail]

/-- C7 witness: a concrete 47-byte buffer with an always-failing encoder
comes back verbatim as WAV with status 200. -/
theorem ttsPOSTRespond_fallback_witness :
    ttsPOSTRespond "mp3".data (List.replicate 44 0 ++ [10, 20, 30]) (fun _ => .error ()) =
      { status := 200, contentType := wavCT,
        body := List.replicate 44 0 ++ [10, 20, 30] } :=
  ttsPOSTRespond_fallback (List.replicate 44 0 ++ [10, 20, 30]) (fun _ => .error ()) rfl

/-! ### Local model text truncation

Model of `generateWithLocalModel` in `src/app/api/tts/route.ts` (line 94)
and of the local endpoint `POST` (unnamed source `part_004`, line 32): the
synthesizer is invoked on `text.substring(0, 500)`, and the resulting audio
is returned with status 200 and no warning of any kind. The synthesizer
together with the WAV packaging of `processLocalModelAudio` is the external
function `synthWav` from the passed text to the response bytes. -/

def generateWithLocalModelInput (text : List Char) : List Char :=
  text.take 500

def ttsLocalPOST (text : List Char) (synthWav : List Char → List Nat) : HttpResponse :=
  if (trim text).length = 0 then
    { status := 400, contentType := jsonCT, body := [] }
  else
    { status := 200, contentType := wavCT,
      body := synthWav (generateWithLocalModelInput text) }

/-- C9: the local synthesis path passes at most the first 500 characters of
the text to the synthesizer, characters beyond position 500 contribute
nothing, and the truncation is silent: the response is a plain 200 whose
body depends only on the first 500 characters. -/
theorem ttsLocalPOST_truncates (text : List Char) (synthWav : List Char → List Nat)
    (hne : (trim text).length ≠ 0) :
    (generateWithLocalModelInput text).length ≤ 500 ∧
    generateWithLocalModelInput text = text.take 500 ∧
    (∀ extra, 500 ≤ text.length →
      generateWithLocalModelInput (text ++ extra) = generateWithLocalModelInput text) ∧
    ttsLocalPOST text synthWav =
      { status := 200, contentType := wavCT, body := synthWav (text.take 500) } := by
  refine ⟨List.length_take_le 500 text, rfl, ?_, ?_⟩
  · intro extra hlen
    simp [generateWithLocalModelInput, List.take_append_of_le_length hlen]
  · simp [ttsLocalPOST, hne, generateWithLocalModelInput]

/-- C9 witness: at the concrete one-character text `a` the truncation facts
and the plain 200 response hold. -/
theorem ttsLocalPOST_truncates_witness :
    (generateWithLocalModelInput ['a']).length ≤ 500 ∧
    generateWithLocalModelInput ['a'] = ['a'].take 500 ∧
    (∀ extra, 500 ≤ (['a'] : List Char).length →
      generateWithLocalModelInput (['a'] ++ extra) = generateWithLocalModelInput ['a']) ∧
    ttsLocalPOST ['a'] (fun t => [t.length]) =
      { status := 200, contentType := wavCT, body := [(['a'].take 500).length] } :=
  ttsLocalPOST_truncates ['a'] (fun t => [t.length]) (by decide)

/-! ### Temp resource janitor

Model of `cleanupOldTempFiles` in `src/app/api/tts/process/route.ts`
(lines 84-125): every directory entry is visited in order; for each, the
file is stat-ed and deleted when `now - mtime > maxAgeMinutes * 60 * 1000`.
Both the stat and the unlink can fail; such a failure is caught per file
(logged and skipped) and the sweep continues with the next entry. The
filesystem outcomes are injected through the `statFails` / `unlinkFails`
flags of each entry; `ageMs` is `now - mtime` in milliseconds. -/

structure TempEntry where
  name : List Char
  ageMs : Nat
  statFails : Bool
  unlinkFails : Bool
  deriving DecidableEq, Repr

structure SweepResult where
  remaining : List TempEntry
  deleted : List (List Char)
  visited : List (List Char)
  cleanedCount : Nat
  deriving DecidableEq, Repr

/-- Sweep loop body over the directory listing. -/
def sweepGo (maxAgeMs : Nat) : List TempEntry → SweepResult
  | [] => { remaining := [], deleted := [], visited := [], cleanedCount := 0 }
  | f :: rest =>
      let r := sweepGo maxAgeMs rest
      if f.statFails then
        { r with remaining := f :: r.remaining, visited := f.name :: r.visited }
      else if f.ageMs > maxAgeMs then
        if f.unlinkFails then
          { r with remaining := f :: r.remaining, visited := f.name :: r.visited }
        else
          { r with deleted := f.name :: r.deleted, visited := f.name :: r.visited,
                   cleanedCount := r.cleanedCount + 1 }
      else
        { r with remaining := f :: r.remaining, visited := f.name :: r.visited }

/-- Janitor sweep with the age bound given in minutes, as in the source. -/
def cleanupOldTempFiles (maxAgeMinutes : Nat) (files : List TempEntry) : SweepResult :=
  sweepGo (maxAgeMinutes * 60 * 1000) files

/-- Eligibility for deletion: the file age strictly exceeds the bound. -/
def isExpired (maxAgeMs : Nat) (f : TempEntry) : Bool :=
  f.ageMs > maxAgeMs

/-- Renaming of one directory entry, used to state that the sweep never
consults filenames. -/
def renameEntry (rho : List Char → List Char) (f : TempEntry) : TempEntry :=
  { f with name := rho f.name }

/-- C8 scenario directory: one file aged 45 minutes, one aged 10 minutes. -/
def demoDir : List TempEntry :=
  [ { name := "old.wav".data, ageMs := 45 * 60 * 1000,
      statFails := false, unlinkFails := false },
    { name := "young.wav".data, ageMs := 10 * 60 * 1000,
      statFails := false, unlinkFails := false } ]

/-- C8: the janitor sweep deletes exactly the files whose age exceeds
`maxAgeMinutes` (provided their stat and unlink succeed), visits every
entry even when individual deletions fail, decides by age only — renaming
every file changes nothing but the reported names — and on the scenario
directory (45-minute and 10-minute files, bound 30) deletes exactly the
45-minute file. -/
theorem cleanupOldTempFiles_correct (maxAgeMinutes : Nat) (files : List TempEntry) :
    ((∀ f ∈ files, f.statFails = false ∧ f.unlinkFails = false) →
      (cleanupOldTempFiles maxAgeMinutes files).deleted =
        (files.filter (isExpired (maxAgeMinutes * 60 * 1000))).map TempEntry.name ∧
      (cleanupOldTempFiles maxAgeMinutes files).remaining =
        files.filter (fun f => !isExpired (maxAgeMinutes * 60 * 1000) f)) ∧
    (cleanupOldTempFiles maxAgeMinutes files).visited = files.map TempEntry.name ∧
    (∀ rho, (cleanupOldTempFiles maxAgeMinutes (files.map (renameEntry rho))).deleted =
      (cleanupOldTempFiles maxAgeMinutes files).deleted.map rho) ∧
    (cleanupOldTempFiles 30 demoDir).deleted = ["old.wav".data] ∧
    (cleanupOldTempFiles 30 demoDir).remaining =
      [{ name := "young.wav".data, ageMs := 10 * 60 * 1000,
         statFails := false, unlinkFails := false }] := by
  refine ⟨?_, ?_, ?_, by decide, by decide⟩
  · intro hok
    rw [cleanupOldTempFiles]
    induction files with
    | nil => simp [sweepGo]
    | cons f rest ih =>
        obtain ⟨hs, hu⟩ := hok f (List.mem_cons_self f rest)
        have hih := ih (fun g hg => hok g (List.mem_cons_of_mem f hg))
        by_cases hexp : f.ageMs > maxAgeMinutes * 60 * 1000
        · simp [sweepGo, hs, hu, hexp, isExpired, hih.1, hih.2]
        · simp [sweepGo, hs, hu, hexp, isExpired, hih.1, hih.2]
  · rw [cleanupOldTempFiles]
    induction files with
    | nil => simp [sweepGo]
    | cons f rest ih =>
        by_cases hs : f.statFails
        · simp [sweepGo, hs, ih]
        · by_cases hexp : f.ageMs > maxAgeMinutes * 60 * 1000
          · by_cases hu : f.unlinkFails
            · simp [sweepGo, hs, hexp, hu, ih]
            · simp [sweepGo, hs, hexp, hu, ih]
          · simp [sweepGo, hs, hexp, ih]
  · intro rho
    rw [cleanupOldTempFiles, cleanupOldTempFiles]
    induction files with
    | nil => simp [sweepGo]
    | cons f rest ih =>
        by_cases hs : f.statFails
        · simp [sweepGo, renameEntry, hs, ih]
        · by_cases hexp : f.ageMs > maxAgeMinutes * 60 * 1000
          · by_cases hu : f.unlinkFails
            · simp [sweepGo, renameEntry, hs, hexp, hu, ih]
            · simp [sweepGo, renameEntry, hs, hexp, hu, ih]
          · simp [sweepGo, renameEntry, hs, hexp, ih]

/-- C8 witness: on the scenario directory with bound 30 the no-failure
clause applies and yields exactly the 45-minute deletion. -/
theorem cleanupOldTempFiles_correct_witness :
    (cleanupOldTempFiles 30 demoDir).deleted =
      (demoDir.filter (isExpired (30 * 60 * 1000))).map TempEntry.name ∧
    (cleanupOldTempFiles 30 demoDir).remaining =
      demoDir.filter (fun f => !isExpired (30 * 60 * 1000) f) :=
  (cleanupOldTempFiles_correct 30 demoDir).1 (by decide)

/-! ### Text chunker

Model of `chunkText` in the client batch processor (unnamed source
`part_009`, lines 33-79). The text is split into paragraphs on the regex
`\n\s*\n`, each paragraph into sentence fields on `[.!?]+`; whitespace-only
sentences are discarded; sentences are greedily accumulated into the
current chunk, closing it (re-appending a period when no terminal
punctuation is present) when the joined candidate would exceed
`maxChunkSize` and the current chunk is non-empty. -/

/-- Prepend a character to the first field of a field list. -/
def consHead (c : Char) : List (List Char) → List (List Char)
  | [] => [[c]]
  | f :: fs => (c :: f) :: fs

/-- Split on maximal non-empty runs of characters satisfying `p`, keeping
the (possibly empty) fields between runs, modelling the JavaScript
`split(/[.!?]+/)` when `p` is `isSentencePunct`. The flag records whether
the scanner is currently inside a separator run. -/
def splitRunsGo (p : Char → Bool) : Bool → List Char → List (List Char)
  | _, [] => [[]]
  | inRun, c :: rest =>
    if p c then
      if inRun then splitRunsGo p true rest
      else [] :: splitRunsGo p true rest
    else consHead c (splitRunsGo p false rest)

def splitRuns (p : Char → Bool) (l : List Char) : List (List Char) :=
  splitRunsGo p false l

/-- Count of newline characters in a buffered whitespace run. -/
def countNL (l : List Char) : Nat := l.countP (fun c => c = '\n')

/-- Paragraph split modelling the JavaScript `split(/\n\s*\n/)`. The
scanner buffers the current field in `cur` (reversed) and the current
maximal whitespace run in `ws` (reversed). The regex matches inside a
maximal whitespace run exactly when the run holds at least two newlines;
the greedy match then runs from the first to the last newline of the run,
so whitespace before the first newline stays with the left field and
whitespace after the last newline starts the right field. -/
def parGo : List Char → List Char → List Char → List (List Char)
  | [], cur, ws =>
      if countNL ws ≥ 2 then
        [cur.reverse ++ ws.reverse.takeWhile (fun c => c ≠ '\n'),
         (ws.takeWhile (fun c => c ≠ '\n')).reverse]
      else
        [cur.reverse ++ ws.reverse]
  | c :: rest, cur, ws =>
      if isWS c then parGo rest cur (c :: ws)
      else if countNL ws ≥ 2 then
        (cur.reverse ++ ws.reverse.takeWhile (fun c => c ≠ '\n')) ::
          parGo rest (c :: ws.takeWhile (fun c => c ≠ '\n')) []
      else parGo rest (c :: (ws ++ cur)) []

def parSplit (text : List Char) : List (List Char) :=
  parGo text [] []

/-- True when the string ends with sentence punctuation, modelling
`endsWith(".") || endsWith("!") || endsWith("?")`. -/
def endsPunct (l : List Char) : Bool :=
  match l.getLast? with
  | some c => isSentencePunct c
  | none => false

/-- True when the string ends with a newline. -/
def endsNL (l : List Char) : Bool :=
  match l.getLast? with
  | some c => c = '\n'
  | none => false

/-- Sentence fields of one paragraph:
`paragraph.split(/[.!?]+/).filter(s => s.trim().length > 0)`. -/
def sentencesOf (par : List Char) : List (List Char) :=
  (splitRuns isSentencePunct par).filter (fun s => (trim s).length > 0)

/-- Inner loop body of `chunkText` over one sentence. The state is the
pair of already emitted chunks and the chunk under construction. -/
def chunkStep (maxChunkSize : Nat) (st : List (List Char) × List Char)
    (s : List Char) : List (List Char) × List Char :=
  let trimmedSentence := trim s
  if trimmedSentence = [] then st
  else
    let chunks := st.1
    let currentChunk := st.2
    let potentialChunk :=
      if currentChunk ≠ [] then currentChunk ++ ('.' :: ' ' :: trimmedSentence)
      else trimmedSentence
    if potentialChunk.length > maxChunkSize ∧ currentChunk ≠ [] then
      let finalChunk :=
        if endsPunct currentChunk then currentChunk else currentChunk ++ ['.']
      (chunks ++ [finalChunk], trimmedSentence)
    else
      (chunks, potentialChunk)

/-- Outer loop body of `chunkText` over one paragraph: skip whitespace-only
paragraphs, fold the sentences, then append the paragraph break. -/
def paraStep (maxChunkSize : Nat) (st : List (List Char) × List Char)
    (par : List Char) : List (List Char) × List Char :=
  if trim par = [] then st
  else
    let st1 := (sentencesOf par).foldl (chunkStep maxChunkSize) st
    if st1.2 ≠ [] ∧ ¬ endsNL st1.2 = true then (st1.1, st1.2 ++ ['\n']) else st1

/-- Model of `chunkText` (unnamed source `part_009`, lines 33-79). -/
def chunkText (text : List Char) (maxChunkSize : Nat) : List (List Char) :=
  let st := (parSplit text).foldl (paraStep maxChunkSize) ([], [])
  if trim st.2 ≠ [] then
    let finalChunk := trim st.2
    st.1 ++ [if endsPunct finalChunk then finalChunk else finalChunk ++ ['.']]
  else st.1

example : chunkText "Hi!".data 450 = ["Hi.".data] := by decide

example : chunkText "Hello world. This is a test.".data 100 =
    ["Hello world. This is a test.".data] := by decide

example : chunkText "abcdef".data 3 = ["abcdef.".data] := by decide

example : chunkText "ab\n\ncd".data 2 = ["ab\n.".data, "cd.".data] := by decide

example : parSplit "a \n\n b".data = ["a ".data, " b".data] := by decide

/-! #### Content preservation of the chunker

Every character that is neither whitespace nor sentence punctuation is
preserved, in order, from the input text into the concatenated chunks:
all separators dropped by the two splits are whitespace or `[.!?]`
characters, and all glue added while assembling chunks consists of
periods, spaces and newlines. -/

theorem keepF_append (a b : List Char) : keepF (a ++ b) = keepF a ++ keepF b := by
  simp [keepF]

theorem keepF_reverse (l : List Char) : keepF l.reverse = (keepF l).reverse := by
  simp [keepF]

theorem keepF_cons (c : Char) (l : List Char) :
    keepF (c :: l) = keepF [c] ++ keepF l := by
  by_cases h : (isWS c || isSentencePunct c) = true <;> simp [keepF, List.filter, h]

theorem keepF_eq_nil_of_ws (l : List Char) (h : ∀ c ∈ l, isWS c = true) :
    keepF l = [] := by
  induction l with
  | nil => rfl
  | cons c rest ih =>
      have hc := h c (List.mem_cons_self c rest)
      rw [keepF_cons, ih (fun d hd => h d (List.mem_cons_of_mem c hd))]
      simp [keepF, hc]

theorem mem_of_mem_takeWhile {p : Char → Bool} {a : Char} :
    ∀ {l : List Char}, a ∈ l.takeWhile p → a ∈ l := by
  intro l
  induction l with
  | nil => simp
  | cons c rest ih =>
      by_cases h : p c
      · rw [List.takeWhile_cons, if_pos h]
        intro hm
        rcases List.mem_cons.mp hm with h1 | h1
        · exact h1 ▸ List.mem_cons_self c rest
        · exact List.mem_cons_of_mem c (ih h1)
      · rw [List.takeWhile_cons, if_neg h]
        intro hm
        exact absurd hm (List.not_mem_nil a)

theorem keepF_dropWhileWS (l : List Char) : keepF (l.dropWhile isWS) = keepF l := by
  induction l with
  | nil => rfl
  | cons c rest ih =>
      by_cases h : isWS c
      · rw [List.dropWhile_cons, if_pos h, ih, keepF_cons]
        simp [keepF, h]
      · rw [List.dropWhile_cons, if_neg h]

theorem keepF_trim (l : List Char) : keepF (trim l) = keepF l := by
  rw [trim, keepF_reverse, keepF_dropWhileWS, keepF_reverse, keepF_dropWhileWS,
    List.reverse_reverse]

theorem flatten_consHead (c : Char) (fs : List (List Char)) :
    (consHead c fs).flatten = c :: fs.flatten := by
  cases fs <;> simp [consHead]

theorem keepF_flatten_splitRunsGo (mode : Bool) (l : List Char) :
    keepF (splitRunsGo isSentencePunct mode l).flatten = keepF l := by
  induction l generalizing mode with
  | nil => simp [splitRunsGo, keepF]
  | cons c rest ih =>
      by_cases h : isSentencePunct c
      · have hc : keepF [c] = [] := by simp [keepF, h]
        have hkc : keepF (c :: rest) = keepF rest := by
          rw [keepF_cons, hc, List.nil_append]
        cases mode <;> simp [splitRunsGo, h, ih, hkc]
      · rw [splitRunsGo, if_neg h, flatten_consHead, keepF_cons,
          ih, ← keepF_cons]

theorem keepF_flatten_splitRuns (l : List Char) :
    keepF (splitRuns isSentencePunct l).flatten = keepF l :=
  keepF_flatten_splitRunsGo false l

theorem keepF_flatten_filter_trim (fields : List (List Char)) :
    ((fields.filter (fun s => (trim s).length > 0)).map
        (fun s => keepF (trim s))).flatten = keepF fields.flatten := by
  induction fields with
  | nil => simp [keepF]
  | cons s rest ih =>
      by_cases h : (trim s).length > 0
      · rw [List.filter_cons, if_pos (by simpa using h), List.map_cons,
          List.flatten_cons, ih, keepF_trim, List.flatten_cons, keepF_append]
      · have hks : keepF s = [] := by
          have hnil : trim s = [] := by
            cases hh : trim s with
            | nil => rfl
            | cons a t => rw [hh] at h; simp at h
          rw [← keepF_trim, hnil]; rfl
        rw [List.filter_cons, if_neg (by simpa using h), ih, List.flatten_cons,
          keepF_append, hks, List.nil_append]

theorem parGo_keepF :
    ∀ (l cur ws : List Char), (∀ c ∈ ws, isWS c = true) →
      keepF (parGo l cur ws).flatten = keepF cur.reverse ++ keepF l := by
  intro l
  induction l with
  | nil =>
      intro cur ws hws
      have hws0 : keepF ws = [] := keepF_eq_nil_of_ws ws hws
      have htw1 : keepF (ws.reverse.takeWhile (fun c => c ≠ '\n')) = [] :=
        keepF_eq_nil_of_ws _ (fun c hc =>
          hws c (List.mem_reverse.mp (mem_of_mem_takeWhile hc)))
      have htw2 : keepF (ws.takeWhile (fun c => c ≠ '\n')) = [] :=
        keepF_eq_nil_of_ws _ (fun c hc => hws c (mem_of_mem_takeWhile hc))
      have hnil : keepF [] = [] := rfl
      by_cases h : countNL ws ≥ 2
      · rw [parGo, if_pos h]
        simp only [List.flatten_cons, List.flatten_nil, List.append_nil]
        rw [keepF_append, keepF_append, htw1]
        simp only [keepF_reverse]
        rw [htw2]
        simp [hnil]
      · rw [parGo, if_neg h]
        simp only [List.flatten_cons, List.flatten_nil, List.append_nil]
        rw [keepF_append]
        simp only [keepF_reverse]
        rw [hws0]
        simp [hnil]
  | cons c rest ih =>
      intro cur ws hws
      by_cases hc : isWS c
      · rw [parGo, if_pos hc]
        rw [ih cur (c :: ws) (fun d hd => by
          rcases List.mem_cons.mp hd with h1 | h1
          · exact h1 ▸ hc
          · exact hws d h1)]
        rw [keepF_cons c rest]
        have : keepF [c] = [] := by simp [keepF, hc]
        rw [this, List.nil_append]
      · by_cases h2 : countNL ws ≥ 2
        · rw [parGo, if_neg hc, if_pos h2]
          simp only [List.flatten_cons, keepF_append, keepF_reverse]
          rw [ih _ [] (by simp)]
          simp only [List.reverse_cons, keepF_append, keepF_reverse]
          rw [keepF_eq_nil_of_ws _ (fun d hd =>
                hws d (List.mem_reverse.mp (mem_of_mem_takeWhile hd))),
            keepF_eq_nil_of_ws _ (fun d hd => hws d (mem_of_mem_takeWhile hd))]
          rw [keepF_cons c rest]
          simp
        · rw [parGo, if_neg hc, if_neg h2]
          rw [ih _ [] (by simp)]
          have hws0 : keepF ws = [] := keepF_eq_nil_of_ws ws hws
          simp only [List.reverse_cons, List.reverse_append, keepF_append,
            keepF_reverse, hws0, List.reverse_nil, List.nil_append,
            List.append_nil]
          rw [keepF_cons c rest]
          simp

theorem keepF_flatten_parSplit (text : List Char) :
    keepF (parSplit text).flatten = keepF text := by
  rw [parSplit, parGo_keepF text [] [] (by simp)]
  rfl

theorem foldl_measure {α σ : Type} (step : σ → α → σ) (m : σ → List Char)
    (contrib : α → List Char) :
    ∀ (l : List α) (st : σ),
      (∀ st2 a, a ∈ l → m (step st2 a) = m st2 ++ contrib a) →
      m (l.foldl step st) = m st ++ (l.map contrib).flatten := by
  intro l
  induction l with
  | nil => intro st h; simp
  | cons a rest ih =>
      intro st h
      rw [List.foldl_cons,
        ih _ (fun st2 b hb => h st2 b (List.mem_cons_of_mem a hb)),
        h st a (List.mem_cons_self a rest)]
      simp [List.append_assoc]

/-- Measure of a chunker state: the preserved content of the emitted chunks
followed by the preserved content of the chunk under construction. -/
def mSt (st : List (List Char) × List Char) : List Char :=
  keepF st.1.flatten ++ keepF st.2

theorem keepF_finalChunk (cur : List Char) :
    keepF (if endsPunct cur then cur else cur ++ ['.']) = keepF cur := by
  by_cases h : endsPunct cur = true
  · rw [if_pos h]
  · rw [if_neg h, keepF_append]
    simp [keepF, isWS, isSentencePunct]

theorem keepF_nil : keepF [] = [] := rfl

theorem chunkStep_measure (B : Nat) (st : List (List Char) × List Char)
    (s : List Char) : mSt (chunkStep B st s) = mSt st ++ keepF (trim s) := by
  simp only [chunkStep]
  by_cases h1 : trim s = []
  · rw [if_pos h1, h1]
    simp [keepF_nil]
  · rw [if_neg h1]
    by_cases h2 : st.2 = []
    · rw [if_neg (by simp [h2] : ¬st.2 ≠ [])]
      rw [if_neg (by simp [h2] : ¬((trim s).length > B ∧ st.2 ≠ []))]
      simp [mSt, h2, keepF_nil]
    · rw [if_pos (by simp [h2] : st.2 ≠ [])]
      by_cases h3 : (st.2 ++ ('.' :: ' ' :: trim s)).length > B ∧ st.2 ≠ []
      · rw [if_pos h3]
        simp only [mSt, List.flatten_append, List.flatten_cons,
          List.flatten_nil, List.append_nil, keepF_append, keepF_finalChunk]
      · rw [if_neg h3]
        simp only [mSt, keepF_append, keepF_cons ('.') (' ' :: trim s),
          keepF_cons (' ') (trim s)]
        have hd : keepF ['.'] = [] := by simp [keepF, isSentencePunct]
        have hsp : keepF [' '] = [] := by simp [keepF, isWS]
        rw [hd, hsp]
        simp [List.append_assoc]

theorem paraStep_measure (B : Nat) (st : List (List Char) × List Char)
    (par : List Char) : mSt (paraStep B st par) = mSt st ++ keepF par := by
  rw [paraStep]
  by_cases h1 : trim par = []
  · rw [if_pos h1, ← keepF_trim par, h1]
    simp [keepF]
  · rw [if_neg h1]
    have hfold : mSt ((sentencesOf par).foldl (chunkStep B) st) =
        mSt st ++ keepF par := by
      rw [foldl_measure (chunkStep B) mSt (fun s => keepF (trim s))
        (sentencesOf par) st (fun st2 s _ => chunkStep_measure B st2 s)]
      rw [sentencesOf, keepF_flatten_filter_trim, keepF_flatten_splitRuns]
    by_cases h2 : ((sentencesOf par).foldl (chunkStep B) st).2 ≠ [] ∧
        ¬ endsNL ((sentencesOf par).foldl (chunkStep B) st).2 = true
    · rw [if_pos h2]
      have hnl : keepF ['\n'] = [] := by simp [keepF, isWS]
      simp only [mSt, keepF_append, hnl, List.append_nil] at hfold ⊢
      exact hfold
    · rw [if_neg h2]
      exact hfold

/-- Content preservation of the chunker: filtering out whitespace and
sentence punctuation, the concatenation of the chunks equals the input. -/
theorem chunkText_keepF (text : List Char) (B : Nat) :
    keepF (chunkText text B).flatten = keepF text := by
  rw [chunkText]
  have hfold : mSt ((parSplit text).foldl (paraStep B) ([], [])) =
      keepF text := by
    rw [foldl_measure (paraStep B) mSt keepF (parSplit text) ([], [])
      (fun st2 p _ => paraStep_measure B st2 p)]
    have : ((parSplit text).map keepF).flatten = keepF (parSplit text).flatten := by
      induction parSplit text with
      | nil => simp [keepF]
      | cons p rest ih => simp [keepF_append, ih]
    rw [this, keepF_flatten_parSplit]
    simp [mSt, keepF]
  set st := (parSplit text).foldl (paraStep B) ([], []) with hst
  by_cases h : trim st.2 ≠ []
  · rw [if_pos h]
    simp only [List.flatten_append, List.flatten_cons, List.flatten_nil,
      List.append_nil, keepF_append, keepF_finalChunk, keepF_trim]
    exact hfold
  · rw [if_neg h]
    have h2 : keepF st.2 = [] := by
      rw [← keepF_trim]
      simp only [ne_eq, not_not] at h
      rw [h]
      rfl
    have := hfold
    simp only [mSt, h2, List.append_nil] at this
    exact this

/-- C2 counterexample: on the input `Hi!` (any bound, here 450) the chunker
returns the single chunk `Hi.`: the non-whitespace character `!` has been
altered to `.`, so the concatenation differs from the input even after
removing all whitespace. -/
theorem chunkText_not_content_preserving :
    stripWS (chunkText "Hi!".data 450).flatten ≠ stripWS "Hi!".data := by
  decide

/-- C2 (amended): for every input text and every bound, concatenating the
chunks preserves the input up to whitespace AND sentence-punctuation
normalization: every character that is neither whitespace nor one of
`.` `!` `?` is preserved in order; runs of sentence punctuation may be
collapsed to a single period and a terminal period may be added. -/
theorem chunkText_content (text : List Char) (B : Nat) :
    keepF (chunkText text B).flatten = keepF text :=
  chunkText_keepF text B

/-! #### Chunk length bounds

A single sentence longer than the bound is never split, so the claimed
bound `maxChunkChars` fails in general. When every trimmed sentence fits
the bound, every chunk is at most `maxChunkChars + 2` characters long: the
construction can add one paragraph newline and one re-appended period on
top of a fitting chunk. -/

theorem trim_length_le (l : List Char) : (trim l).length ≤ l.length := by
  rw [trim]
  simp only [List.length_reverse]
  have h1 : ((l.dropWhile isWS).reverse.dropWhile isWS).length ≤
      (l.dropWhile isWS).reverse.length := (List.dropWhile_sublist isWS).length_le
  have h2 : (l.dropWhile isWS).length ≤ l.length :=
    (List.dropWhile_sublist isWS).length_le
  simp only [List.length_reverse] at h1
  omega

theorem endsNL_append_newline (l : List Char) : endsNL (l ++ ['\n']) = true := by
  simp [endsNL, List.getLast?_concat]

/-- Invariant of the chunker state under the sentence-length hypothesis:
every emitted chunk fits in `B + 2` characters, and the chunk under
construction fits in `B`, or in `B + 1` when it ends in the paragraph
newline. -/
def lenInv (B : Nat) (st : List (List Char) × List Char) : Prop :=
  (∀ ch ∈ st.1, ch.length ≤ B + 2) ∧
  (st.2.length ≤ B ∨ (st.2.length ≤ B + 1 ∧ endsNL st.2 = true))

theorem chunkStep_lenInv (B : Nat) (st : List (List Char) × List Char)
    (s : List Char) (hs : (trim s).length ≤ B) (h : lenInv B st) :
    lenInv B (chunkStep B st s) := by
  simp only [chunkStep]
  by_cases h1 : trim s = []
  · rw [if_pos h1]; exact h
  · rw [if_neg h1]
    by_cases h2 : st.2 = []
    · rw [if_neg (by simp [h2] : ¬st.2 ≠ [])]
      rw [if_neg (by simp [h2] : ¬((trim s).length > B ∧ st.2 ≠ []))]
      exact ⟨h.1, Or.inl hs⟩
    · rw [if_pos (by simp [h2] : st.2 ≠ [])]
      have hcur : st.2.length ≤ B + 1 := by
        rcases h.2 with h' | h'
        · omega
        · exact h'.1
      by_cases h3 : (st.2 ++ ('.' :: ' ' :: trim s)).length > B ∧ st.2 ≠ []
      · rw [if_pos h3]
        refine ⟨?_, Or.inl hs⟩
        intro ch hch
        rcases List.mem_append.mp hch with h' | h'
        · exact h.1 ch h'
        · have : ch = if endsPunct st.2 = true then st.2 else st.2 ++ ['.'] := by
            simpa using h'
          subst this
          by_cases hp : endsPunct st.2 = true
          · simpa [hp] using by omega
          · rw [if_neg hp]
            simp only [List.length_append, List.length_cons, List.length_nil]
            omega
      · rw [if_neg h3]
        have hle : (st.2 ++ ('.' :: ' ' :: trim s)).length ≤ B := by
          rcases not_and_or.mp h3 with h' | h'
          · omega
          · exact absurd (by simp [h2]) h'
        exact ⟨h.1, Or.inl hle⟩

theorem foldl_chunkStep_lenInv (B : Nat) :
    ∀ (sents : List (List Char)) (st : List (List Char) × List Char),
      (∀ s ∈ sents, (trim s).length ≤ B) → lenInv B st →
      lenInv B (sents.foldl (chunkStep B) st) := by
  intro sents
  induction sents with
  | nil => intro st _ h; exact h
  | cons s rest ih =>
      intro st hs h
      rw [List.foldl_cons]
      exact ih _ (fun t ht => hs t (List.mem_cons_of_mem s ht))
        (chunkStep_lenInv B st s (hs s (List.mem_cons_self s rest)) h)

theorem paraStep_lenInv (B : Nat) (st : List (List Char) × List Char)
    (par : List Char)
    (hs : trim par ≠ [] → ∀ s ∈ sentencesOf par, (trim s).length ≤ B)
    (h : lenInv B st) : lenInv B (paraStep B st par) := by
  rw [paraStep]
  by_cases h1 : trim par = []
  · rw [if_pos h1]; exact h
  · rw [if_neg h1]
    have h2 := foldl_chunkStep_lenInv B (sentencesOf par) st (hs h1) h
    set st1 := (sentencesOf par).foldl (chunkStep B) st with hst1
    by_cases hg : st1.2 ≠ [] ∧ ¬ endsNL st1.2 = true
    · rw [if_pos hg]
      refine ⟨h2.1, Or.inr ⟨?_, endsNL_append_newline st1.2⟩⟩
      rcases h2.2 with h' | h'
      · simp only [List.length_append, List.length_cons, List.length_nil]
        omega
      · exact absurd h'.2 hg.2
    · rw [if_neg hg]
      exact h2

theorem foldl_paraStep_lenInv (B : Nat) :
    ∀ (pars : List (List Char)) (st : List (List Char) × List Char),
      (∀ p ∈ pars, trim p ≠ [] → ∀ s ∈ sentencesOf p, (trim s).length ≤ B) →
      lenInv B st → lenInv B (pars.foldl (paraStep B) st) := by
  intro pars
  induction pars with
  | nil => intro st _ h; exact h
  | cons p rest ih =>
      intro st hs h
      rw [List.foldl_cons]
      exact ih _ (fun q hq => hs q (List.mem_cons_of_mem p hq))
        (paraStep_lenInv B st p (hs p (List.mem_cons_self p rest)) h)

/-- Sentence units of the whole input exactly as the chunker processes
them: the trimmed sentence fields of every paragraph whose trim is
non-empty. -/
def allTrimmedSentences (text : List Char) : List (List Char) :=
  (((parSplit text).filter (fun p => !(trim p).isEmpty)).map
    (fun p => (sentencesOf p).map trim)).flatten

theorem chunkText_length_le (text : List Char) (B : Nat)
    (h : ∀ s ∈ allTrimmedSentences text, s.length ≤ B) :
    ∀ ch ∈ chunkText text B, ch.length ≤ B + 2 := by
  have hsent : ∀ p ∈ parSplit text, trim p ≠ [] →
      ∀ s ∈ sentencesOf p, (trim s).length ≤ B := by
    intro p hp hne s hsm
    refine h (trim s) ?_
    rw [allTrimmedSentences]
    refine List.mem_flatten.mpr ⟨(sentencesOf p).map trim, ?_, List.mem_map_of_mem trim hsm⟩
    refine List.mem_map_of_mem _ (List.mem_filter.mpr ⟨hp, ?_⟩)
    simp [List.isEmpty_iff, hne]
  have hinv := foldl_paraStep_lenInv B (parSplit text) ([], []) hsent
    ⟨by simp, Or.inl (by simp)⟩
  rw [chunkText]
  set st := (parSplit text).foldl (paraStep B) ([], []) with hst
  by_cases hf : trim st.2 ≠ []
  · rw [if_pos hf]
    intro ch hch
    rcases List.mem_append.mp hch with h' | h'
    · exact hinv.1 ch h'
    · have hcur : st.2.length ≤ B + 1 := by
        rcases hinv.2 with h'' | h''
        · omega
        · exact h''.1
      have htr : (trim st.2).length ≤ B + 1 := le_trans (trim_length_le st.2) hcur
      have : ch = if endsPunct (trim st.2) = true then trim st.2
          else trim st.2 ++ ['.'] := by simpa using h'
      subst this
      by_cases hp : endsPunct (trim st.2) = true
      · rw [if_pos hp]; omega
      · rw [if_neg hp]
        simp only [List.length_append, List.length_cons, List.length_nil]
        omega
  · rw [if_neg hf]
    exact hinv.1

/-- C6 counterexample: with bound 3 the single punctuation-free sentence
`abcdef` yields the chunk `abcdef.` of length 7, violating the claimed
bound `maxChunkChars`. -/
theorem chunkText_exceeds_bound :
    ¬(∀ ch ∈ chunkText "abcdef".data 3, ch.length ≤ 3) := by
  decide

/-- C6 (amended): the chunks cover the input with no omission up to
whitespace and sentence-punctuation normalization and are emitted in input
order, and the length bound holds in the weakened form: when every trimmed
sentence of the input has length at most `maxChunkChars`, every chunk has
length at most `maxChunkChars + 2` (one paragraph newline plus one
re-appended period); a single longer punctuation-free sentence is never
split and therefore exceeds the claimed bound. -/
theorem chunkText_chunks_spec (text : List Char) (B : Nat) :
    keepF (chunkText text B).flatten = keepF text ∧
    ((∀ s ∈ allTrimmedSentences text, s.length ≤ B) →
      ∀ ch ∈ chunkText text B, ch.length ≤ B + 2) :=
  ⟨chunkText_keepF text B, chunkText_length_le text B⟩

/-- C6 witness: at the concrete input `ab` with bound 5 the sentence-length
hypothesis holds and the theorem yields the chunk bound 7 together with
content preservation. -/
theorem chunkText_chunks_spec_witness :
    keepF (chunkText "ab".data 5).flatten = keepF "ab".data ∧
    (∀ ch ∈ chunkText "ab".data 5, ch.length ≤ 7) :=
  ⟨(chunkText_chunks_spec "ab".data 5).1,
   (chunkText_chunks_spec "ab".data 5).2 (by decide)⟩

/-! ### Chunk synthesis orchestrator

Model of `startProcessing` in the client batch processor (unnamed source
`part_009`, lines 112-183). The loop chunks the text with the default
bound 450, then processes the chunks strictly in order; `processChunk`
(the fetch to the TTS endpoint) is the external function `synth`, returning
the blob size on success or the thrown error message on failure. On
success an audio file record is appended; on failure the catch block calls
`setError` with a warning string — overwriting the previous error state —
and the loop continues. After the loop `onComplete(audioFiles)` is always
invoked; the model records that call in `completedFiles`. -/

structure AudioFileRec where
  filename : List Char
  size : Nat
  deriving DecidableEq, Repr

deriving instance DecidableEq for Except

/-- Success test for an external call result. -/
def isOk {ε α : Type} : Except ε α → Bool
  | .ok _ => true
  | .error _ => false

/-- Decimal digits of a number, modelling JavaScript template
interpolation of a number. -/
def natChars (n : Nat) : List Char := Nat.toDigits 10 n

/-- Model of `padStart(3, "0")`. -/
def pad3 (ds : List Char) : List Char :=
  if ds.length < 3 then List.replicate (3 - ds.length) '0' ++ ds else ds

/-- Filename `chunk_XXX.fmt` built by `processChunk` on success. -/
def chunkFilename (i : Nat) (fmt : List Char) : List Char :=
  "chunk_".data ++ pad3 (natChars (i + 1)) ++ ('.' :: fmt)

def hfMissingNeedle : List Char := "Hugging Face API configuration missing".data

/-- True when the first list is an initial segment of the second. -/
def headMatches : List Char → List Char → Bool
  | [], _ => true
  | _ :: _, [] => false
  | a :: as, b :: bs => a = b && headMatches as bs

/-- Model of `String.prototype.includes`. -/
def containsSub (sub : List Char) : List Char → Bool
  | [] => sub.isEmpty
  | c :: rest => headMatches sub (c :: rest) || containsSub sub rest

def hfConfigWarning (i : Nat) : List Char :=
  "Warning: Chunk ".data ++ natChars (i + 1) ++
    (" failed - Hugging Face API configuration missing. Please check your " ++
     ".env.local file for HUGGINGFACE_API_TOKEN and HUGGINGFACE_TTS_API_URL").data

def genericWarning (i : Nat) (msg : List Char) : List Char :=
  "Warning: Chunk ".data ++ natChars (i + 1) ++ " failed - ".data ++ msg

/-- Warning text passed to `setError` by the per-chunk catch block. -/
def warningFor (i : Nat) (msg : List Char) : List Char :=
  if containsSub hfMissingNeedle msg then hfConfigWarning i else genericWarning i msg

/-- Orchestrator state: collected audio files, the chronological log of
`setError` calls, and the chunk indices handed to `processChunk`. -/
structure ProcState where
  audioFiles : List AudioFileRec
  errorLog : List (List Char)
  calls : List Nat
  deriving DecidableEq, Repr

/-- Observable outcome of `startProcessing`: the `onComplete` payload (the
model reaches it on every run since all per-chunk errors are caught), the
`setError` log, and the attempted chunk indices. -/
structure ProcResult where
  completedFiles : Option (List AudioFileRec)
  errorLog : List (List Char)
  calls : List Nat
  deriving DecidableEq, Repr

def procStep (fmt : List Char) (synth : Nat → List Char → Except (List Char) Nat)
    (st : ProcState) (i : Nat) (c : List Char) : ProcState :=
  match synth i c with
  | .ok size =>
      { st with audioFiles := st.audioFiles ++ [⟨chunkFilename i fmt, size⟩],
                calls := st.calls ++ [i] }
  | .error msg =>
      { st with errorLog := st.errorLog ++ [warningFor i msg],
                calls := st.calls ++ [i] }

def procGo (fmt : List Char) (synth : Nat → List Char → Except (List Char) Nat) :
    Nat → List (List Char) → ProcState → ProcState
  | _, [], st => st
  | i, c :: rest, st => procGo fmt synth (i + 1) rest (procStep fmt synth st i c)

/-- Model of `startProcessing`. -/
def startProcessing (text : List Char) (fmt : List Char)
    (synth : Nat → List Char → Except (List Char) Nat) : ProcResult :=
  let chunks := chunkText text 450
  let st := procGo fmt synth 0 chunks ⟨[], [], []⟩
  { completedFiles := some st.audioFiles, errorLog := st.errorLog,
    calls := st.calls }

/-- Final value of the single React error state: the last `setError` call
wins. -/
def finalError (r : ProcResult) : Option (List Char) := r.errorLog.getLast?

/-- Audio file records produced by the successful chunks, in order. -/
def okFiles (fmt : List Char) (synth : Nat → List Char → Except (List Char) Nat) :
    Nat → List (List Char) → List AudioFileRec
  | _, [] => []
  | i, c :: rest =>
      (match synth i c with
       | .ok size => [⟨chunkFilename i fmt, size⟩]
       | .error _ => []) ++ okFiles fmt synth (i + 1) rest

/-- Warnings produced by the failed chunks, in order. -/
def errWarnings (synth : Nat → List Char → Except (List Char) Nat) :
    Nat → List (List Char) → List (List Char)
  | _, [] => []
  | i, c :: rest =>
      (match synth i c with
       | .ok _ => []
       | .error msg => [warningFor i msg]) ++ errWarnings synth (i + 1) rest

/-- Consecutive indices `i, i+1, ..., i+n-1`. -/
def idxFrom : Nat → Nat → List Nat
  | _, 0 => []
  | i, n + 1 => i :: idxFrom (i + 1) n

theorem procGo_spec (fmt : List Char)
    (synth : Nat → List Char → Except (List Char) Nat) :
    ∀ (cs : List (List Char)) (i : Nat) (st : ProcState),
      procGo fmt synth i cs st =
        { audioFiles := st.audioFiles ++ okFiles fmt synth i cs,
          errorLog := st.errorLog ++ errWarnings synth i cs,
          calls := st.calls ++ idxFrom i cs.length } := by
  intro cs
  induction cs with
  | nil => intro i st; simp [procGo, okFiles, errWarnings, idxFrom]
  | cons c rest ih =>
      intro i st
      rw [procGo, ih]
      cases h : synth i c with
      | ok size =>
          simp [procStep, h, okFiles, errWarnings, idxFrom, List.length_cons]
      | error msg =>
          simp [procStep, h, okFiles, errWarnings, idxFrom, List.length_cons]

theorem allOk_spec (fmt : List Char)
    (synth : Nat → List Char → Except (List Char) Nat) :
    ∀ (cs : List (List Char)) (i : Nat),
      (∀ k, k < cs.length → isOk (synth (i + k) (cs.getD k [])) = true) →
      (okFiles fmt synth i cs).length = cs.length ∧
      errWarnings synth i cs = [] := by
  intro cs
  induction cs with
  | nil => intro i _; exact ⟨rfl, rfl⟩
  | cons c rest ih =>
      intro i h
      have h0 := h 0 (by simp)
      have hrest := ih (i + 1) (fun k hk => by
        have := h (k + 1) (by simpa using Nat.succ_lt_succ hk)
        rw [show i + (k + 1) = i + 1 + k by omega] at this
        simpa [List.getD_cons_succ] using this)
      cases hc : synth i c with
      | ok size =>
          rw [okFiles, errWarnings, hc]
          simp [hrest.1, hrest.2]
      | error msg =>
          rw [show i + 0 = i by omega] at h0
          simp [List.getD_cons_zero] at h0
          rw [hc] at h0
          exact absurd h0 (by simp [isOk])

theorem oneFail_spec (fmt : List Char)
    (synth : Nat → List Char → Except (List Char) Nat) (j : Nat) (m : List Char) :
    ∀ (cs : List (List Char)) (i : Nat), i ≤ j → j - i < cs.length →
      (∀ k, k < cs.length → i + k ≠ j → isOk (synth (i + k) (cs.getD k [])) = true) →
      synth j (cs.getD (j - i) []) = .error m →
      (okFiles fmt synth i cs).length = cs.length - 1 ∧
      errWarnings synth i cs = [warningFor j m] := by
  intro cs
  induction cs with
  | nil => intro i _ h; simp at h
  | cons c rest ih =>
      intro i hij hlt hok hfail
      by_cases hcase : i = j
      · subst hcase
        rw [show i - i = 0 by omega, List.getD_cons_zero] at hfail
        have hrest := allOk_spec fmt synth rest (i + 1) (fun k hk => by
          have := hok (k + 1) (by simpa using Nat.succ_lt_succ hk) (by omega)
          rw [show i + (k + 1) = i + 1 + k by omega] at this
          simpa [List.getD_cons_succ] using this)
        rw [okFiles, errWarnings, hfail]
        simp [hrest.1, hrest.2]
      · have hlt2 : i < j := by omega
        have h0 := hok 0 (by simp) (by omega)
        rw [show i + 0 = i by omega, List.getD_cons_zero] at h0
        have hjr : j - i = (j - (i + 1)) + 1 := by omega
        rw [hjr, List.getD_cons_succ] at hfail
        have hrlen : j - (i + 1) < rest.length := by
          simp only [List.length_cons] at hlt
          omega
        have hrest := ih (i + 1) (by omega) hrlen (fun k hk hne => by
          have := hok (k + 1) (by simpa using Nat.succ_lt_succ hk) (by omega)
          rw [show i + (k + 1) = i + 1 + k by omega] at this
          simpa [List.getD_cons_succ] using this) hfail
        cases hc : synth i c with
        | ok size =>
            rw [okFiles, errWarnings, hc]
            have : rest.length ≠ 0 := by omega
            constructor
            · simp only [List.length_append, List.length_cons, List.length_nil,
                hrest.1]
              omega
            · simpa using hrest.2
        | error msg =>
            rw [hc] at h0
            exact absurd h0 (by simp [isOk])

theorem allFail_spec (fmt : List Char)
    (synth : Nat → List Char → Except (List Char) Nat) (msgs : Nat → List Char) :
    ∀ (cs : List (List Char)) (i : Nat),
      (∀ k, k < cs.length → synth (i + k) (cs.getD k []) = .error (msgs (i + k))) →
      okFiles fmt synth i cs = [] ∧
      errWarnings synth i cs =
        (idxFrom i cs.length).map (fun k => warningFor k (msgs k)) := by
  intro cs
  induction cs with
  | nil => intro i _; exact ⟨rfl, rfl⟩
  | cons c rest ih =>
      intro i h
      have h0 := h 0 (by simp)
      rw [show i + 0 = i by omega, List.getD_cons_zero] at h0
      have hrest := ih (i + 1) (fun k hk => by
        have := h (k + 1) (by simpa using Nat.succ_lt_succ hk)
        rw [show i + (k + 1) = i + 1 + k by omega] at this
        simpa [List.getD_cons_succ] using this)
      rw [okFiles, errWarnings, h0]
      simp [hrest.1, hrest.2, idxFrom]

/-- C5: when exactly one of the N > 1 chunks fails, the orchestrator still
attempts every chunk in order, completes with exactly N - 1 audio files,
and the error log holds exactly the one warning for the failed chunk. -/
theorem startProcessing_oneFailure (text fmt : List Char)
    (synth : Nat → List Char → Except (List Char) Nat) (j : Nat) (m : List Char)
    (hlen : 1 < (chunkText text 450).length)
    (hj : j < (chunkText text 450).length)
    (hfail : synth j ((chunkText text 450).getD j []) = .error m)
    (hok : ∀ k, k < (chunkText text 450).length → k ≠ j →
      isOk (synth k ((chunkText text 450).getD k [])) = true) :
    ((startProcessing text fmt synth).completedFiles.map List.length) =
      some ((chunkText text 450).length - 1) ∧
    (startProcessing text fmt synth).errorLog = [warningFor j m] ∧
    (startProcessing text fmt synth).calls = idxFrom 0 (chunkText text 450).length := by
  have hspec := oneFail_spec fmt synth j m (chunkText text 450) 0 (by omega)
    (by simpa using hj)
    (fun k hk hne => by simpa [Nat.zero_add] using hok k hk (by omega))
    (by simpa using hfail)
  simp only [startProcessing, procGo_spec, List.nil_append]
  refine ⟨?_, hspec.2, trivial⟩
  simp only [Option.map_some']
  rw [hspec.1]

/-- Demo text: two 300-character sentences, chunked into exactly two chunks
under the default bound 450. -/
def demoText : List Char :=
  List.replicate 300 'a' ++ ('.' :: ' ' :: List.replicate 300 'b')

/-- Failing synthesizer returning the message `boom` for every chunk. -/
def synthBoom : Nat → List Char → Except (List Char) Nat :=
  fun _ _ => .error "boom".data

/-- Synthesizer failing exactly on chunk 0. -/
def synthFailFirst : Nat → List Char → Except (List Char) Nat :=
  fun i _ => if i = 0 then .error "boom".data else .ok 7

set_option maxRecDepth 40000 in
/-- C5 witness: on the concrete two-chunk text with only the first chunk
failing, the orchestrator completes with one file, one warning, and both
chunks attempted. -/
theorem startProcessing_oneFailure_witness :
    ((startProcessing demoText "wav".data synthFailFirst).completedFiles.map
        List.length) = some ((chunkText demoText 450).length - 1) ∧
    (startProcessing demoText "wav".data synthFailFirst).errorLog =
      [warningFor 0 "boom".data] ∧
    (startProcessing demoText "wav".data synthFailFirst).calls =
      idxFrom 0 (chunkText demoText 450).length :=
  startProcessing_oneFailure demoText "wav".data synthFailFirst 0 "boom".data
    (by decide) (by decide) (by decide) (by decide)

set_option maxRecDepth 40000 in
/-- C3 counterexample: when every chunk fails (two chunks, both failing),
the orchestrator still completes successfully with an empty artifact list
— `onComplete` is called with `[]` — and the error state retains only the
last warning of the two that were set; no aggregate failure carrying the
full error list is reported. -/
theorem startProcessing_allFail_completes :
    (startProcessing demoText "wav".data synthBoom).completedFiles = some [] ∧
    (startProcessing demoText "wav".data synthBoom).errorLog.length = 2 ∧
    finalError (startProcessing demoText "wav".data synthBoom) =
      some (warningFor 1 "boom".data) := by
  decide

/-- C3 (amended): when every chunk synthesis fails, the orchestrator does
not report an aggregate request-level failure: it completes via
`onComplete` with an empty artifact list; each failed chunk produces one
warning via `setError` in order, so the error state afterwards holds only
the last chunk's warning. -/
theorem startProcessing_allFail (text fmt : List Char)
    (synth : Nat → List Char → Except (List Char) Nat) (msgs : Nat → List Char)
    (hfail : ∀ k, k < (chunkText text 450).length →
      synth k ((chunkText text 450).getD k []) = .error (msgs k)) :
    (startProcessing text fmt synth).completedFiles = some [] ∧
    (startProcessing text fmt synth).errorLog =
      (idxFrom 0 (chunkText text 450).length).map (fun k => warningFor k (msgs k)) ∧
    finalError (startProcessing text fmt synth) =
      ((idxFrom 0 (chunkText text 450).length).map
        (fun k => warningFor k (msgs k))).getLast? := by
  have hspec := allFail_spec fmt synth msgs (chunkText text 450) 0
    (fun k hk => by simpa [Nat.zero_add] using hfail k hk)
  simp only [startProcessing, procGo_spec, List.nil_append]
  refine ⟨by rw [hspec.1], hspec.2, ?_⟩
  simp only [finalError, startProcessing, procGo_spec, List.nil_append, hspec.2]

set_option maxRecDepth 40000 in
/-- C3 amended witness: on the concrete two-chunk text with every chunk
failing, the completion payload is empty and the error log is the two
warnings in order, the last one being the retained error state. -/
theorem startProcessing_allFail_witness :
    (startProcessing demoText "wav".data synthBoom).completedFiles = some [] ∧
    (startProcessing demoText "wav".data synthBoom).errorLog =
      (idxFrom 0 (chunkText demoText 450).length).map
        (fun k => warningFor k ((fun _ => "boom".data) k)) ∧
    finalError (startProcessing demoText "wav".data synthBoom) =
      ((idxFrom 0 (chunkText demoText 450).length).map
        (fun k => warningFor k ((fun _ => "boom".data) k))).getLast? :=
  startProcessing_allFail demoText "wav".data synthBoom (fun _ => "boom".data)
    (by decide)

/-! ### Merge endpoint temp-file lifecycle

Model of `POST` in `src/app/api/tts/process/route.ts` (lines 143-258) as a
state machine on the set of files existing under the temp directory.
Filesystem and subprocess operations can be made to fail through the
injected `fail` oracle; a failing operation raises, which the model
propagates as an `Except.error` carrying the disk state at the throw, as
the route's `try`/`finally`/`catch` structure does. The `finally` block
(lines 249-258) unlinks every tracked chunk WAV and converted MP3 file,
ignoring individual unlink errors; the 500 response of the outer catch is
the `false` outcome. -/

inductive FileRef where
  | wav (i : Nat)
  | mp3 (i : Nat)
  | listf (b : Nat)
  | merged (b : Nat)
  deriving DecidableEq, Repr

inductive FsEvent where
  | writeWav (i : Nat)
  | convert (i : Nat)
  | copyOne (b : Nat)
  | runConcat (b : Nat)
  | readMerged (b : Nat)
  deriving DecidableEq, Repr

structure MergeSt where
  disk : List FileRef
  tempFiles : List FileRef
  convertedFiles : List FileRef
  mergedCount : Nat
  deriving DecidableEq, Repr

/-- Create a file (idempotent, `writeFile` overwrites). -/
def addFile (f : FileRef) (st : MergeSt) : MergeSt :=
  if f ∈ st.disk then st else { st with disk := f :: st.disk }

/-- Unlink a file; removing an absent file is a no-op here, matching every
call site that either knows the file exists or swallows the error. -/
def removeFile (f : FileRef) (st : MergeSt) : MergeSt :=
  { st with disk := st.disk.filter (fun g => g ≠ f) }

/-- Step 1 (lines 158-167): decode and write each chunk to a temp WAV file,
tracking it in `tempFiles`. -/
def saveChunks (fail : FsEvent → Bool) : List Nat → MergeSt → Except MergeSt MergeSt
  | [], st => .ok st
  | i :: rest, st =>
      if fail (.writeWav i) then .error st
      else
        saveChunks fail rest
          (let st1 := addFile (.wav i) st
           { st1 with tempFiles := st1.tempFiles ++ [FileRef.wav i] })

/-- Step 2 (lines 169-179): convert each WAV to MP3, track the MP3, delete
the WAV. -/
def convertChunks (fail : FsEvent → Bool) : List Nat → MergeSt → Except MergeSt MergeSt
  | [], st => .ok st
  | i :: rest, st =>
      if fail (.convert i) then .error st
      else
        let st1 := addFile (.mp3 i) st
        let st2 := { st1 with convertedFiles := st1.convertedFiles ++ [FileRef.mp3 i] }
        convertChunks fail rest (removeFile (.wav i) st2)

/-- The cleanup tail of a batch closing: unlink the batch members, unlink
the merged output, and count the collected buffer. -/
def batchCleanup (batch : List Nat) (b : Nat) (st2 : MergeSt) : MergeSt :=
  let st3 := batch.foldl (fun acc i => removeFile (.mp3 i) acc) st2
  let st4 := removeFile (.merged b) st3
  { st4 with mergedCount := st4.mergedCount + 1 }

/-- Closing one batch: `mergeAudioFiles` (a copy for a single input,
otherwise a list file plus ffmpeg concat, the list file being unlinked in
the inner `finally` on both outcomes), then `readFile` of the merged
output, then unlinking the batch members and the merged output — as at the
two call sites, lines 193-230. -/
def mergeBatch (fail : FsEvent → Bool) (batch : List Nat) (b : Nat)
    (st : MergeSt) : Except MergeSt MergeSt :=
  match
    (if batch.length = 1 then
       if fail (.copyOne b) then Except.error st
       else Except.ok (addFile (.merged b) st)
     else
       let st1 := addFile (.listf b) st
       if fail (.runConcat b) then Except.error (removeFile (.listf b) st1)
       else Except.ok (removeFile (.listf b) (addFile (.merged b) st1))) with
  | .error stE => .error stE
  | .ok st2 =>
      if fail (.readMerged b) then .error st2
      else .ok (batchCleanup batch b st2)

/-- Step 3 (lines 181-230): the size-bounded grouping loop over the
converted files, closing batches with `mergeBatch`, plus the final flush of
the remaining batch. -/
def mergeLoop (fail : FsEvent → Bool) (sizes : Nat → Nat) (maxBytes : Nat) :
    List Nat → List Nat → Nat → Nat → MergeSt → Except MergeSt MergeSt
  | [], currentBatch, _, batchIndex, st =>
      if currentBatch ≠ [] then mergeBatch fail currentBatch batchIndex st
      else .ok st
  | i :: rest, currentBatch, currentBatchSize, batchIndex, st =>
      let fileSize := sizes i
      if currentBatchSize + fileSize > maxBytes ∧ currentBatch ≠ [] then
        match mergeBatch fail currentBatch batchIndex st with
        | .error stE => .error stE
        | .ok st2 =>
            mergeLoop fail sizes maxBytes rest [i] fileSize (batchIndex + 1) st2
      else
        mergeLoop fail sizes maxBytes rest (currentBatch ++ [i])
          (currentBatchSize + fileSize) batchIndex st

/-- The `finally` block: unlink every file in `tempFiles` and
`convertedFiles`, individual failures ignored. -/
def finallyClean (st : MergeSt) : MergeSt :=
  { st with disk :=
      st.disk.filter (fun f => decide (¬ f ∈ st.tempFiles ++ st.convertedFiles)) }

def emptyMergeSt : MergeSt :=
  { disk := [], tempFiles := [], convertedFiles := [], mergedCount := 0 }

/-- State carried out of an exit, successful or thrown. -/
def outSt : Except MergeSt MergeSt → MergeSt
  | .ok st => st
  | .error st => st

/-- Model of the merge endpoint `POST`: the three phases inside the
`try`, then the `finally` cleanup on whichever exit is taken; the boolean
is `true` for the 200 response and `false` for the 500 one. -/
def processPOST (n : Nat) (sizes : Nat → Nat) (maxBytes : Nat)
    (fail : FsEvent → Bool) : Bool × MergeSt :=
  let r :=
    match saveChunks fail (List.range n) emptyMergeSt with
    | .error st => Except.error st
    | .ok st =>
        match convertChunks fail (List.range n) st with
        | .error st2 => Except.error st2
        | .ok st2 => mergeLoop fail sizes maxBytes (List.range n) [] 0 0 st2
  match r with
  | .ok st => (true, finallyClean st)
  | .error st => (false, finallyClean st)

/-- Failure oracle making only the read of merged output 0 fail. -/
def failRead0 : FsEvent → Bool := fun e => e = .readMerged 0

/-- C4 counterexample: a single-chunk request in which reading back the
merged output throws. The request exits through the `finally` and the
catch (500), yet the merged output file `merged_..._0.mp3` is still on
disk when the request returns — only the janitor can reclaim it. -/
theorem processPOST_leaks_merged :
    (processPOST 1 (fun _ => 10) 100 failRead0).1 = false ∧
    (processPOST 1 (fun _ => 10) 100 failRead0).2.disk = [FileRef.merged 0] := by
  decide

theorem mem_addFile (f g : FileRef) (st : MergeSt) :
    f ∈ (addFile g st).disk ↔ f = g ∨ f ∈ st.disk := by
  rw [addFile]
  by_cases h : g ∈ st.disk
  · rw [if_pos h]
    constructor
    · exact Or.inr
    · rintro (rfl | hf)
      · exact h
      · exact hf
  · rw [if_neg h]
    exact List.mem_cons

theorem mem_removeFile (f g : FileRef) (st : MergeSt) :
    f ∈ (removeFile g st).disk ↔ f ∈ st.disk ∧ f ≠ g := by
  rw [removeFile]
  simp [List.mem_filter]

theorem tempFiles_addFile (g : FileRef) (st : MergeSt) :
    (addFile g st).tempFiles = st.tempFiles := by
  rw [addFile]; by_cases h : g ∈ st.disk
  · rw [if_pos h]
  · rw [if_neg h]

theorem convertedFiles_addFile (g : FileRef) (st : MergeSt) :
    (addFile g st).convertedFiles = st.convertedFiles := by
  rw [addFile]; by_cases h : g ∈ st.disk
  · rw [if_pos h]
  · rw [if_neg h]

theorem mem_foldl_removeFile (f : FileRef) :
    ∀ (batch : List Nat) (st : MergeSt),
      f ∈ (batch.foldl (fun acc i => removeFile (.mp3 i) acc) st).disk ↔
        f ∈ st.disk ∧ ∀ i ∈ batch, f ≠ FileRef.mp3 i := by
  intro batch
  induction batch with
  | nil => intro st; simp
  | cons i rest ih =>
      intro st
      rw [List.foldl_cons, ih, mem_removeFile]
      constructor
      · rintro ⟨⟨hf, hne⟩, hrest⟩
        refine ⟨hf, ?_⟩
        intro j hj
        rcases List.mem_cons.mp hj with rfl | hj'
        · exact hne
        · exact hrest j hj'
      · rintro ⟨hf, hall⟩
        exact ⟨⟨hf, hall i (List.mem_cons_self i rest)⟩,
          fun j hj => hall j (List.mem_cons_of_mem i hj)⟩

theorem foldl_removeFile_tempFiles :
    ∀ (batch : List Nat) (st : MergeSt),
      (batch.foldl (fun acc i => removeFile (.mp3 i) acc) st).tempFiles =
        st.tempFiles ∧
      (batch.foldl (fun acc i => removeFile (.mp3 i) acc) st).convertedFiles =
        st.convertedFiles := by
  intro batch
  induction batch with
  | nil => intro st; exact ⟨rfl, rfl⟩
  | cons i rest ih => intro st; exact ih (removeFile (.mp3 i) st)

/-- Tracking invariant: every file on disk is a tracked chunk WAV, a
tracked converted MP3, or a merged output. -/
def MInv (st : MergeSt) : Prop :=
  ∀ f ∈ st.disk,
    f ∈ st.tempFiles ∨ f ∈ st.convertedFiles ∨ ∃ b, f = FileRef.merged b

theorem MInv_saveChunks (fail : FsEvent → Bool) :
    ∀ (is : List Nat) (st : MergeSt), MInv st →
      MInv (outSt (saveChunks fail is st)) := by
  intro is
  induction is with
  | nil => intro st h; exact h
  | cons i rest ih =>
      intro st h
      rw [saveChunks]
      by_cases hf : fail (.writeWav i)
      · rw [if_pos hf]; exact h
      · rw [if_neg hf]
        refine ih _ ?_
        intro g hg
        simp only at hg
        rw [mem_addFile] at hg
        rcases hg with rfl | hg
        · exact Or.inl (by
            simp only [tempFiles_addFile]
            exact List.mem_append_right _ (List.mem_cons_self _ _))
        · rcases h g hg with h' | h' | h'
          · exact Or.inl (by
              simp only [tempFiles_addFile]
              exact List.mem_append_left _ h')
          · exact Or.inr (Or.inl (by
              simp only [convertedFiles_addFile]
              exact h'))
          · exact Or.inr (Or.inr h')

theorem MInv_convertChunks (fail : FsEvent → Bool) :
    ∀ (is : List Nat) (st : MergeSt), MInv st →
      MInv (outSt (convertChunks fail is st)) := by
  intro is
  induction is with
  | nil => intro st h; exact h
  | cons i rest ih =>
      intro st h
      rw [convertChunks]
      by_cases hf : fail (.convert i)
      · rw [if_pos hf]; exact h
      · rw [if_neg hf]
        refine ih _ ?_
        intro g hg
        simp only [removeFile, List.mem_filter] at hg
        have hg2 := hg.1
        rw [mem_addFile] at hg2
        rcases hg2 with rfl | hg2
        · exact Or.inr (Or.inl (by
            simp only [convertedFiles_addFile]
            exact List.mem_append_right _ (List.mem_cons_self _ _)))
        · rcases h g hg2 with h' | h' | h'
          · exact Or.inl (by simp only [tempFiles_addFile]; exact h')
          · exact Or.inr (Or.inl (by
              simp only [convertedFiles_addFile]
              exact List.mem_append_left _ h'))
          · exact Or.inr (Or.inr h')

theorem batchCleanup_disk (f : FileRef) (batch : List Nat) (b : Nat)
    (st2 : MergeSt) :
    f ∈ (batchCleanup batch b st2).disk ↔
      (f ∈ st2.disk ∧ ∀ i ∈ batch, f ≠ FileRef.mp3 i) ∧ f ≠ FileRef.merged b := by
  show f ∈ (removeFile (.merged b)
      (batch.foldl (fun acc i => removeFile (.mp3 i) acc) st2)).disk ↔ _
  rw [mem_removeFile, mem_foldl_removeFile]

theorem batchCleanup_files (batch : List Nat) (b : Nat) (st2 : MergeSt) :
    (batchCleanup batch b st2).tempFiles = st2.tempFiles ∧
    (batchCleanup batch b st2).convertedFiles = st2.convertedFiles := by
  show (removeFile (.merged b)
      (batch.foldl (fun acc i => removeFile (.mp3 i) acc) st2)).tempFiles = _ ∧
    (removeFile (.merged b)
      (batch.foldl (fun acc i => removeFile (.mp3 i) acc) st2)).convertedFiles = _
  exact ⟨(foldl_removeFile_tempFiles batch st2).1,
         (foldl_removeFile_tempFiles batch st2).2⟩

theorem MInv_batchCleanup (batch : List Nat) (b : Nat) (st2 : MergeSt)
    (h2 : MInv st2) : MInv (batchCleanup batch b st2) := by
  intro g hg
  rw [batchCleanup_disk] at hg
  have := h2 g hg.1.1
  rw [(batchCleanup_files batch b st2).1, (batchCleanup_files batch b st2).2]
  exact this

theorem MInv_add_merged (b : Nat) (st : MergeSt) (h : MInv st) :
    MInv (addFile (.merged b) st) := by
  intro g hg
  rw [mem_addFile] at hg
  rcases hg with rfl | hg
  · exact Or.inr (Or.inr ⟨b, rfl⟩)
  · rw [tempFiles_addFile, convertedFiles_addFile]
    exact h g hg

theorem MInv_remove_add_listf (b : Nat) (st : MergeSt) (h : MInv st) :
    MInv (removeFile (.listf b) (addFile (.listf b) st)) := by
  intro g hg
  rw [mem_removeFile] at hg
  have hg2 := hg.1
  rw [mem_addFile] at hg2
  rcases hg2 with rfl | hg2
  · exact absurd rfl hg.2
  · show g ∈ (addFile (.listf b) st).tempFiles ∨
      g ∈ (addFile (.listf b) st).convertedFiles ∨ ∃ b2, g = FileRef.merged b2
    rw [tempFiles_addFile, convertedFiles_addFile]
    exact h g hg2

theorem MInv_remove_add_merged_listf (b : Nat) (st : MergeSt) (h : MInv st) :
    MInv (removeFile (.listf b) (addFile (.merged b) (addFile (.listf b) st))) := by
  intro g hg
  rw [mem_removeFile] at hg
  have hg2 := hg.1
  rw [mem_addFile] at hg2
  rcases hg2 with rfl | hg2
  · exact Or.inr (Or.inr ⟨b, rfl⟩)
  · rw [mem_addFile] at hg2
    rcases hg2 with rfl | hg2
    · exact absurd rfl hg.2
    · show g ∈ (addFile (.merged b) (addFile (.listf b) st)).tempFiles ∨
        g ∈ (addFile (.merged b) (addFile (.listf b) st)).convertedFiles ∨
        ∃ b2, g = FileRef.merged b2
      rw [tempFiles_addFile, convertedFiles_addFile, tempFiles_addFile,
        convertedFiles_addFile]
      exact h g hg2

theorem MInv_mergeBatch (fail : FsEvent → Bool) (batch : List Nat) (b : Nat)
    (st : MergeSt) (h : MInv st) : MInv (outSt (mergeBatch fail batch b st)) := by
  rw [mergeBatch]
  by_cases h1 : batch.length = 1
  · rw [if_pos h1]
    by_cases hc : fail (.copyOne b)
    · rw [if_pos hc]; exact h
    · rw [if_neg hc]
      have hadd := MInv_add_merged b st h
      show MInv (outSt (if fail (.readMerged b) then
        Except.error (addFile (.merged b) st)
        else Except.ok (batchCleanup batch b (addFile (.merged b) st))))
      by_cases hr : fail (.readMerged b)
      · rw [if_pos hr]; exact hadd
      · rw [if_neg hr]; exact MInv_batchCleanup batch b _ hadd
  · rw [if_neg h1]
    by_cases hc : fail (.runConcat b)
    · rw [if_pos hc]
      exact MInv_remove_add_listf b st h
    · rw [if_neg hc]
      have hE := MInv_remove_add_merged_listf b st h
      show MInv (outSt (if fail (.readMerged b) then
        Except.error (removeFile (.listf b) (addFile (.merged b)
          (addFile (.listf b) st)))
        else Except.ok (batchCleanup batch b (removeFile (.listf b)
          (addFile (.merged b) (addFile (.listf b) st))))))
      by_cases hr : fail (.readMerged b)
      · rw [if_pos hr]; exact hE
      · rw [if_neg hr]; exact MInv_batchCleanup batch b _ hE

theorem MInv_mergeLoop (fail : FsEvent → Bool) (sizes : Nat → Nat)
    (maxBytes : Nat) :
    ∀ (is batch : List Nat) (size bidx : Nat) (st : MergeSt), MInv st →
      MInv (outSt (mergeLoop fail sizes maxBytes is batch size bidx st)) := by
  intro is
  induction is with
  | nil =>
      intro batch size bidx st h
      rw [mergeLoop]
      by_cases hb : batch ≠ []
      · rw [if_pos hb]; exact MInv_mergeBatch fail batch bidx st h
      · rw [if_neg hb]; exact h
  | cons i rest ih =>
      intro batch size bidx st h
      rw [mergeLoop]
      by_cases hc : size + sizes i > maxBytes ∧ batch ≠ []
      · rw [if_pos hc]
        cases hm : mergeBatch fail batch bidx st with
        | error stE =>
            have := MInv_mergeBatch fail batch bidx st h
            rw [hm] at this
            exact this
        | ok st2 =>
            have := MInv_mergeBatch fail batch bidx st h
            rw [hm] at this
            exact ih [i] (sizes i) (bidx + 1) st2 this
      · rw [if_neg hc]
        exact ih (batch ++ [i]) (size + sizes i) bidx st h

/-- On any exit, injected failures included, no chunk WAV, converted MP3,
or ffmpeg list file survives the request; only merged outputs can. -/
theorem match_pair_snd (r : Except MergeSt MergeSt) :
    (match r with
     | Except.ok st => (true, finallyClean st)
     | Except.error st => (false, finallyClean st)).2 = finallyClean (outSt r) := by
  cases r <;> rfl

theorem processPOST_only_merged (n : Nat) (sizes : Nat → Nat) (maxBytes : Nat)
    (fail : FsEvent → Bool) :
    ∀ f ∈ (processPOST n sizes maxBytes fail).2.disk, ∃ b, f = FileRef.merged b := by
  have hempty : MInv emptyMergeSt := by intro f hf; simp [emptyMergeSt] at hf
  have hexit : MInv (outSt
      (match saveChunks fail (List.range n) emptyMergeSt with
       | .error st => Except.error st
       | .ok st =>
          match convertChunks fail (List.range n) st with
          | .error st2 => Except.error st2
          | .ok st2 => mergeLoop fail sizes maxBytes (List.range n) [] 0 0 st2)) := by
    cases hs : saveChunks fail (List.range n) emptyMergeSt with
    | error st =>
        have h1 := MInv_saveChunks fail (List.range n) emptyMergeSt hempty
        rw [hs] at h1
        exact h1
    | ok st =>
        have hst : MInv st := by
          have h1 := MInv_saveChunks fail (List.range n) emptyMergeSt hempty
          rw [hs] at h1
          exact h1
        show MInv (outSt (match convertChunks fail (List.range n) st with
          | .error st2 => Except.error st2
          | .ok st2 => mergeLoop fail sizes maxBytes (List.range n) [] 0 0 st2))
        cases hc : convertChunks fail (List.range n) st with
        | error st2 =>
            have h2 := MInv_convertChunks fail (List.range n) st hst
            rw [hc] at h2
            exact h2
        | ok st2 =>
            have h2 : MInv st2 := by
              have h3 := MInv_convertChunks fail (List.range n) st hst
              rw [hc] at h3
              exact h3
            exact MInv_mergeLoop fail sizes maxBytes (List.range n) [] 0 0 st2 h2
  intro f hf
  simp only [processPOST] at hf
  rw [match_pair_snd] at hf
  simp only [finallyClean, List.mem_filter] at hf
  have hnot := of_decide_eq_true hf.2
  rcases hexit f hf.1 with h' | h' | h'
  · exact absurd (List.mem_append_left _ h') hnot
  · exact absurd (List.mem_append_right _ h') hnot
  · exact h'

theorem saveChunks_noFail :
    ∀ (is : List Nat) (st : MergeSt), ∃ st',
      saveChunks (fun _ => false) is st = .ok st' ∧
      st'.tempFiles = st.tempFiles ++ is.map FileRef.wav ∧
      st'.convertedFiles = st.convertedFiles ∧
      (∀ f ∈ st'.disk, f ∈ st.disk ∨ ∃ i, i ∈ is ∧ f = FileRef.wav i) := by
  intro is
  induction is with
  | nil =>
      intro st
      exact ⟨st, rfl, by simp, rfl, fun f hf => Or.inl hf⟩
  | cons i rest ih =>
      intro st
      obtain ⟨st', h1, h2, h3, h4⟩ := ih
        { addFile (.wav i) st with
          tempFiles := (addFile (.wav i) st).tempFiles ++ [FileRef.wav i] }
      refine ⟨st', ?_, ?_, ?_, ?_⟩
      · rw [saveChunks, if_neg (by simp)]
        exact h1
      · rw [h2]
        show ((addFile (.wav i) st).tempFiles ++ [FileRef.wav i]) ++ _ = _
        rw [tempFiles_addFile]
        simp
      · rw [h3]
        show (addFile (.wav i) st).convertedFiles = _
        rw [convertedFiles_addFile]
      · intro f hf
        rcases h4 f hf with hin | ⟨i2, hi2, rfl⟩
        · have : f ∈ (addFile (.wav i) st).disk := hin
          rw [mem_addFile] at this
          rcases this with rfl | hin2
          · exact Or.inr ⟨i, List.mem_cons_self i rest, rfl⟩
          · exact Or.inl hin2
        · exact Or.inr ⟨i2, List.mem_cons_of_mem i hi2, rfl⟩

theorem convertChunks_noFail :
    ∀ (is : List Nat) (st : MergeSt), ∃ st',
      convertChunks (fun _ => false) is st = .ok st' ∧
      st'.tempFiles = st.tempFiles ∧
      st'.convertedFiles = st.convertedFiles ++ is.map FileRef.mp3 ∧
      (∀ f ∈ st'.disk,
        (f ∈ st.disk ∧ ∀ i ∈ is, f ≠ FileRef.wav i) ∨
        ∃ i, i ∈ is ∧ f = FileRef.mp3 i) := by
  intro is
  induction is with
  | nil =>
      intro st
      exact ⟨st, rfl, rfl, by simp, fun f hf => Or.inl ⟨hf, by simp⟩⟩
  | cons i rest ih =>
      intro st
      obtain ⟨st', h1, h2, h3, h4⟩ := ih
        (removeFile (.wav i)
          { addFile (.mp3 i) st with
            convertedFiles := (addFile (.mp3 i) st).convertedFiles ++ [FileRef.mp3 i] })
      refine ⟨st', ?_, ?_, ?_, ?_⟩
      · rw [convertChunks, if_neg (by simp)]
        exact h1
      · rw [h2]
        show (addFile (.mp3 i) st).tempFiles = _
        rw [tempFiles_addFile]
      · rw [h3]
        show ((addFile (.mp3 i) st).convertedFiles ++ [FileRef.mp3 i]) ++ _ = _
        rw [convertedFiles_addFile]
        simp
      · intro f hf
        rcases h4 f hf with ⟨hin, hnw⟩ | ⟨i2, hi2, rfl⟩
        · rw [mem_removeFile] at hin
          have hin2 := hin.1
          rw [mem_addFile] at hin2
          rcases hin2 with rfl | hin3
          · exact Or.inr ⟨i, List.mem_cons_self i rest, rfl⟩
          · refine Or.inl ⟨hin3, ?_⟩
            intro i2 hi2
            rcases List.mem_cons.mp hi2 with rfl | hi3
            · exact hin.2
            · exact hnw i2 hi3
        · exact Or.inr ⟨i2, List.mem_cons_of_mem i hi2, rfl⟩

/-- No merged output or list file is present on disk. -/
def NoAux (st : MergeSt) : Prop :=
  ∀ b, FileRef.merged b ∉ st.disk ∧ FileRef.listf b ∉ st.disk

theorem mergeBatch_noFail (batch : List Nat) (b : Nat) (st : MergeSt)
    (haux : NoAux st) : ∃ st',
    mergeBatch (fun _ => false) batch b st = .ok st' ∧
    (∀ f ∈ st'.disk, f ∈ st.disk ∧ ∀ i ∈ batch, f ≠ FileRef.mp3 i) ∧
    NoAux st' := by
  by_cases h1 : batch.length = 1
  · refine ⟨batchCleanup batch b (addFile (.merged b) st), ?_, ?_, ?_⟩
    · simp [mergeBatch, h1]
    · intro f hf
      rw [batchCleanup_disk] at hf
      have hin := hf.1.1
      rw [mem_addFile] at hin
      rcases hin with rfl | hin
      · exact absurd rfl hf.2
      · exact ⟨hin, hf.1.2⟩
    · intro b2
      constructor
      · intro hmem
        rw [batchCleanup_disk] at hmem
        have hin := hmem.1.1
        rw [mem_addFile] at hin
        rcases hin with heq | hin
        · exact hmem.2 heq
        · exact (haux b2).1 hin
      · intro hmem
        rw [batchCleanup_disk] at hmem
        have hin := hmem.1.1
        rw [mem_addFile] at hin
        rcases hin with heq | hin
        · exact FileRef.noConfusion heq
        · exact (haux b2).2 hin
  · refine ⟨batchCleanup batch b
      (removeFile (.listf b) (addFile (.merged b) (addFile (.listf b) st))), ?_, ?_, ?_⟩
    · simp [mergeBatch, h1]
    · intro f hf
      rw [batchCleanup_disk] at hf
      have hin := hf.1.1
      rw [mem_removeFile] at hin
      have hin2 := hin.1
      rw [mem_addFile] at hin2
      rcases hin2 with rfl | hin2
      · exact absurd rfl hf.2
      · rw [mem_addFile] at hin2
        rcases hin2 with rfl | hin2
        · exact absurd rfl hin.2
        · exact ⟨hin2, hf.1.2⟩
    · intro b2
      constructor
      · intro hmem
        rw [batchCleanup_disk] at hmem
        have hin := hmem.1.1
        rw [mem_removeFile] at hin
        have hin2 := hin.1
        rw [mem_addFile] at hin2
        rcases hin2 with heq | hin2
        · exact hmem.2 heq
        · rw [mem_addFile] at hin2
          rcases hin2 with heq | hin2
          · exact FileRef.noConfusion heq
          · exact (haux b2).1 hin2
      · intro hmem
        rw [batchCleanup_disk] at hmem
        have hin := hmem.1.1
        rw [mem_removeFile] at hin
        have hin2 := hin.1
        rw [mem_addFile] at hin2
        rcases hin2 with heq | hin2
        · exact FileRef.noConfusion heq
        · rw [mem_addFile] at hin2
          rcases hin2 with heq | hin2
          · exact hin.2 heq
          · exact (haux b2).2 hin2

theorem mergeLoop_noFail (sizes : Nat → Nat) (maxBytes : Nat) :
    ∀ (is batch : List Nat) (size bidx : Nat) (st : MergeSt), NoAux st → ∃ st',
      mergeLoop (fun _ => false) sizes maxBytes is batch size bidx st = .ok st' ∧
      (∀ f ∈ st'.disk, f ∈ st.disk ∧
        ∀ i, (i ∈ batch ∨ i ∈ is) → f ≠ FileRef.mp3 i) ∧
      NoAux st' := by
  intro is
  induction is with
  | nil =>
      intro batch size bidx st haux
      by_cases hb : batch = []
      · subst hb
        refine ⟨st, by rw [mergeLoop]; simp, ?_, haux⟩
        intro f hf
        refine ⟨hf, ?_⟩
        intro i hi
        rcases hi with h | h <;> exact absurd h (List.not_mem_nil i)
      · obtain ⟨st', heq, hmem, haux'⟩ := mergeBatch_noFail batch bidx st haux
        refine ⟨st', by rw [mergeLoop, if_pos hb]; exact heq, ?_, haux'⟩
        intro f hf
        refine ⟨(hmem f hf).1, ?_⟩
        intro i hi
        rcases hi with h | h
        · exact (hmem f hf).2 i h
        · exact absurd h (List.not_mem_nil i)
  | cons i rest ih =>
      intro batch size bidx st haux
      by_cases hc : size + sizes i > maxBytes ∧ batch ≠ []
      · obtain ⟨st2, heq2, hmem2, haux2⟩ := mergeBatch_noFail batch bidx st haux
        obtain ⟨st', heq', hmem', haux'⟩ := ih [i] (sizes i) (bidx + 1) st2 haux2
        refine ⟨st', ?_, ?_, haux'⟩
        · rw [mergeLoop, if_pos hc, heq2]
          exact heq'
        · intro f hf
          have ha := hmem' f hf
          have hb2 := hmem2 f ha.1
          refine ⟨hb2.1, ?_⟩
          intro i2 hi2
          rcases hi2 with h | h
          · exact hb2.2 i2 h
          · rcases List.mem_cons.mp h with rfl | h
            · exact ha.2 i2 (Or.inl (List.mem_cons_self i2 []))
            · exact ha.2 i2 (Or.inr h)
      · obtain ⟨st', heq', hmem', haux'⟩ :=
          ih (batch ++ [i]) (size + sizes i) bidx st haux
        refine ⟨st', by rw [mergeLoop, if_neg hc]; exact heq', ?_, haux'⟩
        intro f hf
        have ha := hmem' f hf
        refine ⟨ha.1, ?_⟩
        intro i2 hi2
        rcases hi2 with h | h
        · exact ha.2 i2 (Or.inl (List.mem_append_left _ h))
        · rcases List.mem_cons.mp h with rfl | h
          · exact ha.2 i2 (Or.inl (List.mem_append_right _ (List.mem_cons_self i2 [])))
          · exact ha.2 i2 (Or.inr h)

theorem processPOST_noFail (n : Nat) (sizes : Nat → Nat) (maxBytes : Nat) :
    (processPOST n sizes maxBytes (fun _ => false)).1 = true ∧
    (processPOST n sizes maxBytes (fun _ => false)).2.disk = [] := by
  obtain ⟨st1, hs, htemp1, hconv1, hdisk1⟩ :=
    saveChunks_noFail (List.range n) emptyMergeSt
  obtain ⟨st2, hc, htemp2, hconv2, hdisk2⟩ := convertChunks_noFail (List.range n) st1
  have haux2 : NoAux st2 := by
    intro b
    constructor
    · intro hmem
      rcases hdisk2 _ hmem with ⟨hin, _⟩ | ⟨i, _, heq⟩
      · rcases hdisk1 _ hin with h | ⟨i, _, heq⟩
        · simp [emptyMergeSt] at h
        · exact FileRef.noConfusion heq
      · exact FileRef.noConfusion heq
    · intro hmem
      rcases hdisk2 _ hmem with ⟨hin, _⟩ | ⟨i, _, heq⟩
      · rcases hdisk1 _ hin with h | ⟨i, _, heq⟩
        · simp [emptyMergeSt] at h
        · exact FileRef.noConfusion heq
      · exact FileRef.noConfusion heq
  obtain ⟨st3, hm, hmem3, _⟩ :=
    mergeLoop_noFail sizes maxBytes (List.range n) [] 0 0 st2 haux2
  have hdisk3 : st3.disk = [] := by
    rw [List.eq_nil_iff_forall_not_mem]
    intro f hf
    have h1 := hmem3 f hf
    rcases hdisk2 f h1.1 with ⟨hin, hnw⟩ | ⟨i, hi, rfl⟩
    · rcases hdisk1 f hin with h | ⟨i, hi, rfl⟩
      · simp [emptyMergeSt] at h
      · exact hnw i hi rfl
    · exact h1.2 i (Or.inr hi) rfl
  have hres : processPOST n sizes maxBytes (fun _ => false) =
      (true, finallyClean st3) := by
    simp only [processPOST]
    rw [hs]
    show (match (match convertChunks (fun _ => false) (List.range n) st1 with
      | .error st2 => Except.error st2
      | .ok st2 => mergeLoop (fun _ => false) sizes maxBytes (List.range n) [] 0 0 st2) with
      | Except.ok st => (true, finallyClean st)
      | Except.error st => (false, finallyClean st)) = (true, finallyClean st3)
    rw [hc]
    show (match mergeLoop (fun _ => false) sizes maxBytes (List.range n) [] 0 0 st2 with
      | Except.ok st => (true, finallyClean st)
      | Except.error st => (false, finallyClean st)) = (true, finallyClean st3)
    rw [hm]
  rw [hres]
  exact ⟨rfl, by simp [finallyClean, hdisk3]⟩

/-- C4 (amended): on the success path every temporary file — chunk WAV
files, converted MP3 files, ffmpeg list files, and merged output files —
is deleted before the request returns, and on every exit path the tracked
chunk WAV, MP3 and list files are deleted; but a merged output file is not
covered by the `finally` cleanup and survives the request when a failure
occurs between its creation and its inline unlink (see the
counterexample), leaving it to the janitor sweep. -/
theorem processPOST_temp_cleanup (n : Nat) (sizes : Nat → Nat) (maxBytes : Nat)
    (fail : FsEvent → Bool) :
    ((processPOST n sizes maxBytes (fun _ => false)).1 = true ∧
     (processPOST n sizes maxBytes (fun _ => false)).2.disk = []) ∧
    (∀ f ∈ (processPOST n sizes maxBytes fail).2.disk, ∃ b, f = FileRef.merged b) :=
  ⟨processPOST_noFail n sizes maxBytes, processPOST_only_merged n sizes maxBytes fail⟩

/-- C4 witness: the concrete single-chunk request cleans up fully on the
no-failure run, and on the read-failure run the surviving file is indeed a
merged output. -/
theorem processPOST_temp_cleanup_witness :
    ((processPOST 1 (fun _ => 10) 100 (fun _ => false)).1 = true ∧
     (processPOST 1 (fun _ => 10) 100 (fun _ => false)).2.disk = []) ∧
    (∃ b, FileRef.merged 0 = FileRef.merged b) :=
  ⟨(processPOST_temp_cleanup 1 (fun _ => 10) 100 failRead0).1,
   (processPOST_temp_cleanup 1 (fun _ => 10) 100 failRead0).2
     (FileRef.merged 0) (by decide)⟩

end KokoroTTS
